import Mathlib

/-!
# Verification of the resilient delivery / streaming core

Shallow embedding of the Python sources of the Claude-Code-Remote repository
(`src/adapters/base.py`, `src/adapters/telegram.py`, `src/adapters/discord.py`,
`src/core/router.py`) and proofs about the embedded operations.

Conventions used throughout:
* Python `str` values are modelled as `List Char` (inputs are treated as
  sequences of Unicode scalar values, exactly what Python iterates over).
* Python `float` time stamps (`time.time()`) are modelled as `ℚ`: only
  comparison and subtraction of time stamps occur in the modelled code.
* Asynchronous network calls are modelled by explicit outcome oracles passed
  as arguments; the state mutated by the Python objects is passed explicitly.
-/

namespace CCRemote

/-! ## Python string helpers

`str.strip` / `lstrip` / `rstrip` with the default argument remove leading and
trailing whitespace.  The modelled inputs are ASCII-range texts, so the
whitespace test is the ASCII one (also the `\s` class of the `re` module). -/

/-- Whitespace test backing Python `str.strip()` and the regex class `\s`
(ASCII range). -/
def isSpaceChar (c : Char) : Bool :=
  c == ' ' || c == '\t' || c == '\n' || c == '\r' || c == '\x0b' || c == '\x0c'

/-- Python `str.lstrip()`. -/
def lstripL (l : List Char) : List Char := l.dropWhile isSpaceChar

/-- Python `str.rstrip()`. -/
def rstripL (l : List Char) : List Char := (l.reverse.dropWhile isSpaceChar).reverse

/-- Python `str.strip()`. -/
def stripL (l : List Char) : List Char := rstripL (lstripL l)

theorem lstripL_decomp (l : List Char) :
    (∀ c ∈ l.takeWhile isSpaceChar, isSpaceChar c = true) ∧
    l = l.takeWhile isSpaceChar ++ lstripL l :=
  ⟨fun _ hc => List.mem_takeWhile_imp hc,
    (List.takeWhile_append_dropWhile isSpaceChar l).symm⟩

theorem rstripL_decomp (l : List Char) :
    (∀ c ∈ (l.reverse.takeWhile isSpaceChar).reverse, isSpaceChar c = true) ∧
    l = rstripL l ++ (l.reverse.takeWhile isSpaceChar).reverse := by
  constructor
  · intro c hc
    rw [List.mem_reverse] at hc
    exact List.mem_takeWhile_imp hc
  · rw [rstripL]
    rw [← List.reverse_append, List.takeWhile_append_dropWhile, List.reverse_reverse]

theorem rstripL_length_le (l : List Char) : (rstripL l).length ≤ l.length := by
  rw [rstripL, List.length_reverse]
  calc (l.reverse.dropWhile isSpaceChar).length ≤ l.reverse.length :=
        (List.dropWhile_sublist isSpaceChar).length_le
    _ = l.length := List.length_reverse l

theorem lstripL_length_le (l : List Char) : (lstripL l).length ≤ l.length :=
  (List.dropWhile_sublist isSpaceChar).length_le

/-! ## StreamingContext (src/adapters/base.py, lines 21-36)

`StreamingContext` is a dataclass holding the state of one live streaming
message; `should_update` is its throttling gate.  The Python code reads the
wall clock via `time.time()`; the model takes the current time as an
argument. -/

structure StreamingContext where
  chat_id : List Char
  message_id : List Char
  platform : List Char
  last_content : List Char := []
  last_update_time : ℚ := 0
  update_interval : ℚ := 3
deriving DecidableEq

/-- `StreamingContext.should_update` (base.py lines 31-36): update only if at
least `update_interval` elapsed, the content changed, and the stripped content
is longer than 10 characters. -/
def StreamingContext.should_update (c : StreamingContext) (currentTime : ℚ)
    (new_content : List Char) : Bool :=
  decide (c.update_interval ≤ currentTime - c.last_update_time) &&
    (new_content != c.last_content) &&
    decide (10 < (stripL new_content).length)

/-! ## Streaming updates and finalization
(src/adapters/telegram.py lines 366-403, src/adapters/discord.py lines 670-703)

Both adapters gate `update_streaming_response` on `should_update`, returning
`True` without any edit when the gate rejects.  The result records the state
after the call, how many edit requests were issued, and the returned boolean.
The success of the underlying edit request is an oracle argument `editOk`
(for the Telegram adapter every gated-through attempt in fact fails at
runtime, because `TelegramAdapter` defines no `edit_message_plain` method and
the `AttributeError` is caught and turned into `False`; this is the
`editOk = false` case). -/

/-- Telegram message length limit (telegram.py line 45). -/
def telegramMaxLen : Nat := 4096

/-- Discord message length limit (discord.py line 40). -/
def discordMaxLen : Nat := 2000

structure UpdateResult where
  ctx : StreamingContext
  editCalls : Nat
  ret : Bool
deriving DecidableEq

/-- Truncation `content[:maxLen - 3] + "..."` applied when content exceeds the
platform limit. -/
def truncateTo (maxLen : Nat) (content : List Char) : List Char :=
  if maxLen < content.length then content.take (maxLen - 3) ++ ".".toList ++ ".".toList ++ ".".toList
  else content

/-- `TelegramAdapter.update_streaming_response` (telegram.py lines 366-390):
skip (returning `True`) unless `should_update`; otherwise truncate to the
Telegram limit, edit, and on success record the sent content and time. -/
def telegram_update_streaming_response (c : StreamingContext) (now : ℚ)
    (content : List Char) (editOk : Bool) : UpdateResult :=
  if ¬ c.should_update now content then ⟨c, 0, true⟩
  else
    let content' := truncateTo telegramMaxLen content
    if editOk then ⟨{ c with last_content := content', last_update_time := now }, 1, true⟩
    else ⟨c, 1, false⟩

/-- `DiscordAdapter.update_streaming_response` (discord.py lines 670-690):
same gate; the truncation happens inside `edit_message_plain` and only affects
the wire content, `last_content` records the untruncated content. -/
def discord_update_streaming_response (c : StreamingContext) (now : ℚ)
    (content : List Char) (editOk : Bool) : UpdateResult :=
  if ¬ c.should_update now content then ⟨c, 0, true⟩
  else if editOk then ⟨{ c with last_content := content, last_update_time := now }, 1, true⟩
  else ⟨c, 1, false⟩

/-- `TelegramAdapter.finalize_streaming_response` (telegram.py lines 392-403):
delegate to `update_streaming_response` when the final content differs from
the last sent content, else return `True` without editing. -/
def telegram_finalize_streaming_response (c : StreamingContext) (now : ℚ)
    (final_content : List Char) (editOk : Bool) : UpdateResult :=
  if final_content != c.last_content then
    telegram_update_streaming_response c now final_content editOk
  else ⟨c, 0, true⟩

/-- `DiscordAdapter.finalize_streaming_response` (discord.py lines 692-703). -/
def discord_finalize_streaming_response (c : StreamingContext) (now : ℚ)
    (final_content : List Char) (editOk : Bool) : UpdateResult :=
  if final_content != c.last_content then
    discord_update_streaming_response c now final_content editOk
  else ⟨c, 0, true⟩

/-! ## Claim C4: the `should_update` gate -/

/-- C4: `should_update(candidateText)` returns true iff (a) at least
`update_interval` (default 3s) elapsed since the last accepted update,
(b) the candidate differs from `last_content`, and (c) the stripped candidate
is strictly longer than 10 characters.  In particular a candidate arriving 1s
after the last accepted update is rejected, and a candidate of at most 10
stripped characters is rejected regardless of timing. -/
theorem should_update_spec (c : StreamingContext) (now : ℚ) (s : List Char) :
    (c.should_update now s = true ↔
      (c.update_interval ≤ now - c.last_update_time ∧ s ≠ c.last_content ∧
        10 < (stripL s).length)) ∧
    (c.update_interval = 3 → now - c.last_update_time = 1 →
      c.should_update now s = false) ∧
    ((stripL s).length ≤ 10 → c.should_update now s = false) := by
  refine ⟨?_, ?_, ?_⟩
  · simp [StreamingContext.should_update, Bool.and_eq_true, and_assoc]
  · intro h1 h2
    have hd : decide (c.update_interval ≤ now - c.last_update_time) = false := by
      rw [decide_eq_false_iff_not, h1, h2]
      norm_num
    simp only [StreamingContext.should_update]
    rw [hd, Bool.false_and, Bool.false_and]
  · intro h
    have hd : decide (10 < (stripL s).length) = false := by
      rw [decide_eq_false_iff_not]
      omega
    simp only [StreamingContext.should_update]
    rw [hd, Bool.and_false]

def ctx4 : StreamingContext :=
  { chat_id := [], message_id := [], platform := [],
    last_content := [], last_update_time := 0, update_interval := 3 }

theorem should_update_spec_witness :
    ctx4.update_interval = 3 ∧ (1 : ℚ) - ctx4.last_update_time = 1 ∧
    ctx4.should_update 1 ("hello wonderful world".toList) = false :=
  ⟨rfl, by norm_num [ctx4], (should_update_spec ctx4 1 _).2.1 rfl (by norm_num [ctx4])⟩

/-! ## Claim C9: throttled skip is indistinguishable from success -/

/-- C9: when `should_update` rejects, `update_streaming_response` (both the
Telegram and the Discord adapter) issues no edit, leaves the context
unchanged, and returns `True`; in general the call returns `False` exactly
when an edit was actually attempted and failed. -/
theorem update_streaming_skip_spec (c : StreamingContext) (now : ℚ)
    (s : List Char) (editOk : Bool) (h : c.should_update now s = false) :
    telegram_update_streaming_response c now s editOk = ⟨c, 0, true⟩ ∧
    discord_update_streaming_response c now s editOk = ⟨c, 0, true⟩ ∧
    (∀ (c₂ : StreamingContext) (t₂ : ℚ) (s₂ : List Char) (ok₂ : Bool),
      ((telegram_update_streaming_response c₂ t₂ s₂ ok₂).ret = false ↔
        (telegram_update_streaming_response c₂ t₂ s₂ ok₂).editCalls = 1 ∧ ok₂ = false) ∧
      ((discord_update_streaming_response c₂ t₂ s₂ ok₂).ret = false ↔
        (discord_update_streaming_response c₂ t₂ s₂ ok₂).editCalls = 1 ∧ ok₂ = false)) := by
  refine ⟨?_, ?_, ?_⟩
  · simp [telegram_update_streaming_response, h]
  · simp [discord_update_streaming_response, h]
  · intro c₂ t₂ s₂ ok₂
    constructor
    · by_cases hg : c₂.should_update t₂ s₂ <;> cases ok₂ <;>
        simp [telegram_update_streaming_response, hg]
    · by_cases hg : c₂.should_update t₂ s₂ <;> cases ok₂ <;>
        simp [discord_update_streaming_response, hg]

theorem update_streaming_skip_spec_witness :
    ctx4.should_update 1 ("abc".toList) = false ∧
    telegram_update_streaming_response ctx4 1 ("abc".toList) true = ⟨ctx4, 0, true⟩ := by
  have hg : ctx4.should_update 1 ("abc".toList) = false := by
    have hd : decide (10 < (stripL ("abc".toList)).length) = false := by decide
    simp only [StreamingContext.should_update]
    rw [hd, Bool.and_false]
  exact ⟨hg, (update_streaming_skip_spec ctx4 1 _ true hg).1⟩

/-! ## Claim C5: finalization -/

def ctx5 : StreamingContext :=
  { chat_id := [], message_id := [], platform := [],
    last_content := "previous streamed content".toList,
    last_update_time := 10, update_interval := 3 }

/-- C5 counterexample: a final text that differs from the last sent content
and is long, arriving 1 second after the last accepted update, is finalized
WITHOUT any edit attempt (the `should_update` throttle also gates the final
edit), contradicting "always attempts exactly one more edit whenever
finalText differs from lastSentContent". -/
theorem skip_of_gate_false (c : StreamingContext) (now : ℚ) (f : List Char) (ok : Bool)
    (hg : c.should_update now f = false) :
    telegram_finalize_streaming_response c now f ok = ⟨c, 0, true⟩ ∧
    discord_finalize_streaming_response c now f ok = ⟨c, 0, true⟩ := by
  constructor
  · by_cases hne : f = c.last_content <;>
      simp [telegram_finalize_streaming_response, telegram_update_streaming_response, hne, hg]
  · by_cases hne : f = c.last_content <;>
      simp [discord_finalize_streaming_response, discord_update_streaming_response, hne, hg]

theorem finalize_not_always_edit :
    "the final answer, which differs".toList ≠ ctx5.last_content ∧
    telegram_finalize_streaming_response ctx5 11 ("the final answer, which differs".toList) true
      = ⟨ctx5, 0, true⟩ ∧
    discord_finalize_streaming_response ctx5 11 ("the final answer, which differs".toList) true
      = ⟨ctx5, 0, true⟩ := by
  have hg : ctx5.should_update 11 ("the final answer, which differs".toList) = false := by
    have hd : decide (ctx5.update_interval ≤ (11 : ℚ) - ctx5.last_update_time) = false := by
      rw [decide_eq_false_iff_not]
      show ¬ ((3 : ℚ) ≤ 11 - 10)
      norm_num
    simp only [StreamingContext.should_update]
    rw [hd, Bool.false_and, Bool.false_and]
  exact ⟨by decide, (skip_of_gate_false ctx5 11 _ true hg).1,
    (skip_of_gate_false ctx5 11 _ true hg).2⟩

/-- C5 (amended): `finalize(finalText)` performs no edit when `finalText`
equals the last sent content; when it differs, it attempts exactly one edit
if and only if the `should_update` gate (minimum interval elapsed and stripped
length over 10) also passes, and never attempts more than one edit. -/
theorem finalize_streaming_spec (c : StreamingContext) (now : ℚ)
    (f : List Char) (editOk : Bool) :
    ((telegram_finalize_streaming_response c now f editOk).editCalls = 1 ↔
      c.should_update now f = true) ∧
    ((discord_finalize_streaming_response c now f editOk).editCalls = 1 ↔
      c.should_update now f = true) ∧
    (f = c.last_content →
      telegram_finalize_streaming_response c now f editOk = ⟨c, 0, true⟩ ∧
      discord_finalize_streaming_response c now f editOk = ⟨c, 0, true⟩) ∧
    (telegram_finalize_streaming_response c now f editOk).editCalls ≤ 1 ∧
    (discord_finalize_streaming_response c now f editOk).editCalls ≤ 1 := by
  have hlast : c.should_update now c.last_content = false := by
    simp [StreamingContext.should_update]
  refine ⟨?_, ?_, ?_, ?_, ?_⟩
  · by_cases he : f = c.last_content
    · subst he
      simp [telegram_finalize_streaming_response, hlast]
    · by_cases hg : c.should_update now f <;> cases editOk <;>
        simp [telegram_finalize_streaming_response, telegram_update_streaming_response, he, hg]
  · by_cases he : f = c.last_content
    · subst he
      simp [discord_finalize_streaming_response, hlast]
    · by_cases hg : c.should_update now f <;> cases editOk <;>
        simp [discord_finalize_streaming_response, discord_update_streaming_response, he, hg]
  · intro he
    subst he
    simp [telegram_finalize_streaming_response, discord_finalize_streaming_response]
  · by_cases he : f = c.last_content
    · subst he
      simp [telegram_finalize_streaming_response]
    · by_cases hg : c.should_update now f <;> cases editOk <;>
        simp [telegram_finalize_streaming_response, telegram_update_streaming_response, he, hg]
  · by_cases he : f = c.last_content
    · subst he
      simp [discord_finalize_streaming_response]
    · by_cases hg : c.should_update now f <;> cases editOk <;>
        simp [discord_finalize_streaming_response, discord_update_streaming_response, he, hg]

theorem finalize_streaming_spec_witness :
    ([] : List Char) = ctx4.last_content ∧
    telegram_finalize_streaming_response ctx4 5 [] true = ⟨ctx4, 0, true⟩ :=
  ⟨rfl, ((finalize_streaming_spec ctx4 5 [] true).2.2.1 rfl).1⟩

/-! ## Persisted store cap (src/adapters/base.py lines 90-107)

`_save_processed_messages` reduces an oversized store with
`set(list(self.processed_messages)[-1000:])`, i.e. it keeps the last 1000
entries of the SET ITERATION ORDER, an arbitrary, hash-dependent permutation
of the inserted identifiers (CPython randomizes string hashing per process).
The function is modelled on the enumeration list `enum` produced by
`list(self.processed_messages)`; it is polymorphic in the element type, just
as the Python code never inspects the ids. -/

def save_processed {α : Type} (enum : List α) : List α :=
  if 1000 < enum.length then enum.drop (enum.length - 1000) else enum

/-- C8: the cap holds (1001 inserted ids are cut down to 1000 persisted
entries), but eviction follows the arbitrary enumeration order, not insertion
order: with ids inserted in the order `0, 1, ..., 1000` and the set enumerated
in reversed order (a legal set iteration order), the surviving entries contain
the OLDEST id 0 while the NEWEST id 1000 is evicted — the exact opposite of
the claimed FIFO eviction.  This contradicts the code's own comment
"Keep only recent messages (last 1000)". -/
theorem save_processed_not_fifo :
    (List.range 1001).reverse.Perm (List.range 1001) ∧
    (save_processed (List.range 1001).reverse).length = 1000 ∧
    0 ∈ save_processed (List.range 1001).reverse ∧
    1000 ∉ save_processed (List.range 1001).reverse := by
  have hrev : (List.range 1001).reverse = 1000 :: (List.range 1000).reverse := by
    rw [List.range_succ, List.reverse_append]
    simp
  have hsave : save_processed (List.range 1001).reverse = (List.range 1000).reverse := by
    rw [save_processed, if_pos (by simp), hrev]
    simp
  refine ⟨List.reverse_perm _, ?_, ?_, ?_⟩
  · rw [hsave]
    simp
  · rw [hsave, List.mem_reverse, List.mem_range]
    norm_num
  · rw [hsave, List.mem_reverse, List.mem_range]
    omega

/-! ## Inbound deduplication (src/adapters/base.py lines 90-117,
src/adapters/discord.py lines 229-242)

`DiscordAdapter.listen` checks `is_message_processed` for each parsed inbound
message, and if the id is new it calls `mark_message_processed` — `set.add`
followed immediately by `_save_processed_messages`, whose cap-trim
`set(list(self.processed_messages)[-1000:])` replaces an oversized in-memory
set by the last 1000 entries of its arbitrary iteration order and writes the
resulting set to the state file — BEFORE handing the message to
`process_discord_message` / the router.  The in-memory set is modelled as a
duplicate-free list in insertion order; `enum` supplies the set's iteration
order at each save (an arbitrary permutation of the elements, exactly as for
`save_processed`).  Side effects are recorded as a trace: `persist` for a
write of the state file (the snapshot lists the persisted set's elements),
`route` for a message handed on to processing; `auth` is the authorization
predicate checked inside `process_discord_message` before the router is
invoked.  Like the store itself, the model is polymorphic in the id type. -/

inductive AdapterEvent (α : Type) where
  | persist (snapshot : List α)
  | route (msgId : α)
deriving DecidableEq

/-- `set.add` on the insertion-ordered model of `processed_messages`. -/
def addProcessed {α : Type} [DecidableEq α] (s : List α) (m : α) : List α :=
  if m ∈ s then s else s ++ [m]

/-- `mark_message_processed` (base.py lines 113-117): `set.add` followed by
the immediate `_save_processed_messages`, whose cap-trim keeps the last 1000
entries of the iteration order `enum` of the grown set. -/
def mark_message_processed {α : Type} [DecidableEq α] (enum : List α → List α)
    (s : List α) (m : α) : List α :=
  save_processed (enum (addProcessed s m))

/-- One inbound message through the dedup guard of `DiscordAdapter.listen`
(discord.py lines 229-242): skip an already-processed id; otherwise mark and
persist, then (for an authorized sender) route to processing. -/
def handleInbound {α : Type} [DecidableEq α] (auth : α → Bool)
    (enum : List α → List α) (s : List α) (m : α) :
    List α × List (AdapterEvent α) :=
  if m ∈ s then (s, [])
  else
    let s2 := mark_message_processed enum s m
    (s2, AdapterEvent.persist s2 :: (if auth m then [AdapterEvent.route m] else []))

/-- Deliveries of a sequence of inbound messages, threading the store. -/
def handleInboundAll {α : Type} [DecidableEq α] (auth : α → Bool)
    (enum : List α → List α) :
    List α → List α → List α × List (AdapterEvent α)
  | s, [] => (s, [])
  | s, m :: ms =>
    let r := handleInbound auth enum s m
    let r2 := handleInboundAll auth enum r.1 ms
    (r2.1, r.2 ++ r2.2)

/-- The trace events routing message id `m` to processing. -/
def isRouteOf {α : Type} [DecidableEq α] (m : α) : AdapterEvent α → Bool
  | .route m2 => m2 == m
  | _ => false

theorem range_succ_reverse (n : Nat) :
    (List.range (n + 1)).reverse = n :: (List.range n).reverse := by
  rw [List.range_succ, List.reverse_append]
  simp

theorem save_processed_cons_at_cap {α : Type} (x : α) (l : List α)
    (hl : l.length = 1000) : save_processed (x :: l) = l := by
  rw [save_processed, if_pos (by simp [hl])]
  simp [hl, List.drop_one]

/-- C1: at the 1000-entry cap the dedup guarantee fails.  With the store
holding the ids 0..999 and the set enumerated in reversed insertion order at
each save (a legal iteration order — first conjunct), the cap-trim of
`_save_processed_messages` evicts the freshly marked id 1000 from the
in-memory and persisted set, so delivering the same message id twice routes
it to processing TWICE; from a store below the cap (here: empty) the same
double delivery routes exactly once. -/
theorem dedup_reroute_at_cap :
    (∀ l : List Nat, l.reverse.Perm l) ∧
    (List.range 1000).length = 1000 ∧
    (1000 : Nat) ∉ List.range 1000 ∧
    (handleInboundAll (fun _ => true) List.reverse (List.range 1000) [1000, 1000]).2 =
      [AdapterEvent.persist (List.range 1000).reverse, AdapterEvent.route 1000,
       AdapterEvent.persist (List.range 1000), AdapterEvent.route 1000] ∧
    ((handleInboundAll (fun _ => true) List.reverse (List.range 1000)
        [1000, 1000]).2.filter (isRouteOf 1000)).length = 2 ∧
    ((handleInboundAll (fun _ => true) List.reverse ([] : List Nat)
        [1000, 1000]).2.filter (isRouteOf 1000)).length = 1 := by
  have hnotin : (1000 : Nat) ∉ List.range 1000 := by simp
  have hmark1 : mark_message_processed List.reverse (List.range 1000) 1000 =
      (List.range 1000).reverse := by
    rw [mark_message_processed, addProcessed, if_neg hnotin, ← List.range_succ,
      range_succ_reverse]
    exact save_processed_cons_at_cap _ _ (by simp)
  have h1 : handleInbound (fun _ => true) List.reverse (List.range 1000) 1000 =
      ((List.range 1000).reverse,
        [AdapterEvent.persist (List.range 1000).reverse, AdapterEvent.route 1000]) := by
    rw [handleInbound, if_neg hnotin]
    dsimp only
    rw [hmark1, if_pos rfl]
  have hnotin2 : (1000 : Nat) ∉ (List.range 1000).reverse := by simp
  have hmark2 : mark_message_processed List.reverse ((List.range 1000).reverse) 1000 =
      List.range 1000 := by
    rw [mark_message_processed, addProcessed, if_neg hnotin2, List.reverse_append,
      List.reverse_reverse, show ([1000] : List Nat).reverse = [1000] from rfl,
      List.singleton_append]
    exact save_processed_cons_at_cap _ _ (by simp)
  have h2 : handleInbound (fun _ => true) List.reverse ((List.range 1000).reverse) 1000 =
      (List.range 1000,
        [AdapterEvent.persist (List.range 1000), AdapterEvent.route 1000]) := by
    rw [handleInbound, if_neg hnotin2]
    dsimp only
    rw [hmark2, if_pos rfl]
  have hall : handleInboundAll (fun _ => true) List.reverse (List.range 1000)
      [1000, 1000] =
      (List.range 1000,
        [AdapterEvent.persist (List.range 1000).reverse, AdapterEvent.route 1000,
         AdapterEvent.persist (List.range 1000), AdapterEvent.route 1000]) := by
    simp only [handleInboundAll, h1, h2]
    rfl
  refine ⟨fun l => List.reverse_perm l, by simp, hnotin, ?_, ?_, ?_⟩
  · rw [hall]
  · rw [hall]
    simp [isRouteOf, List.filter]
  · decide

/-! ## Resilience layer (src/adapters/discord.py lines 72-88, 135-211, 277-364)

Proxy health and circuit-breaker state of `DiscordAdapter`, together with
`_make_request_with_retry`.  `time.time()` readings are explicit arguments;
the outcome of each network attempt is an oracle `oracle : Nat → AttemptOutcome`
indexed by the 0-based attempt number, and `random.uniform(0.1, 0.5)` is an
oracle `rand : Nat → ℚ`. -/

/-- `self.max_retries` (discord.py line 73). -/
def maxRetries : Nat := 3

/-- `self.base_delay` (discord.py line 74). -/
def baseDelay : ℚ := 1

/-- `self.max_delay` (discord.py line 75). -/
def maxDelay : ℚ := 30

/-- `self.proxy_check_interval` (discord.py line 80). -/
def proxyCheckInterval : ℚ := 300

/-- `self.max_proxy_failures` (discord.py line 82). -/
def maxProxyFailures : Nat := 5

/-- `self.circuit_breaker_timeout` (discord.py line 87). -/
def circuitBreakerTimeout : ℚ := 600

/-- `self.severe_failure_threshold` (discord.py line 88). -/
def severeFailureThreshold : Nat := 10

structure ProxyState where
  proxyHealthy : Bool := true
  proxyLastCheck : ℚ := 0
  proxyConsecutiveFailures : Nat := 0
  circuitBreakerOpen : Bool := false
  circuitBreakerOpenTime : ℚ := 0
deriving DecidableEq

/-- `_handle_proxy_failure` (discord.py lines 171-184): bump the consecutive
failure counter, mark unhealthy at `max_proxy_failures`, open the circuit
breaker (recording the current time) at `severe_failure_threshold`. -/
def handle_proxy_failure (s : ProxyState) (now : ℚ) : ProxyState :=
  let f := s.proxyConsecutiveFailures + 1
  let h := if maxProxyFailures ≤ f then false else s.proxyHealthy
  if severeFailureThreshold ≤ f then
    { s with proxyConsecutiveFailures := f, proxyHealthy := h,
             circuitBreakerOpen := true, circuitBreakerOpenTime := now }
  else
    { s with proxyConsecutiveFailures := f, proxyHealthy := h }

/-- `_reset_proxy_health` (discord.py lines 186-197): on a successful request
restore health, zero the failure counter, and close an open circuit. -/
def reset_proxy_health (s : ProxyState) : ProxyState :=
  let s1 :=
    if s.proxyHealthy = false ∨ 0 < s.proxyConsecutiveFailures then
      { s with proxyHealthy := true, proxyConsecutiveFailures := 0 }
    else s
  if s1.circuitBreakerOpen then
    { s1 with circuitBreakerOpen := false, circuitBreakerOpenTime := 0 }
  else s1

/-- `_is_circuit_breaker_open` (discord.py lines 199-211): report the breaker
state, auto-closing it once `circuit_breaker_timeout` has elapsed. -/
def is_circuit_breaker_open (s : ProxyState) (now : ℚ) : ProxyState × Bool :=
  if s.circuitBreakerOpen = false then (s, false)
  else if circuitBreakerTimeout ≤ now - s.circuitBreakerOpenTime then
    ({ s with circuitBreakerOpen := false, circuitBreakerOpenTime := 0 }, false)
  else (s, true)

/-- Outcome of the health-probe request in `_check_proxy_health`. -/
inductive ProbeOutcome where
  | ok
  | badStatus
  | exn
deriving DecidableEq

/-- `_check_proxy_health` (discord.py lines 135-169): without a proxy report
healthy; within `proxy_check_interval` of the last probe return the cached
flag; otherwise probe, updating the bookkeeping, and stamp the check time. -/
def check_proxy_health (hasProxy : Bool) (s : ProxyState) (now : ℚ)
    (probe : ProbeOutcome) : ProxyState × Bool :=
  if hasProxy = false then (s, true)
  else if now - s.proxyLastCheck < proxyCheckInterval then (s, s.proxyHealthy)
  else
    let s1 :=
      match probe with
      | .ok => { s with proxyHealthy := true, proxyConsecutiveFailures := 0 }
      | .badStatus => handle_proxy_failure s now
      | .exn => handle_proxy_failure s now
    let s2 := { s1 with proxyLastCheck := now }
    (s2, s2.proxyHealthy)

/-- Outcome of one attempt of the request loop: a successful status (200, or
201 for POST), a non-success status below 500 (returned, not retried), a
network/timeout-class error — `asyncio.TimeoutError`, `aiohttp.ClientError`
(which includes the `ClientResponseError` raised for statuses ≥ 500) or
`ConnectionError` — which is retried, or any other exception, re-raised. -/
inductive AttemptOutcome where
  | ok
  | clientError (status : Nat)
  | netError
  | nonNetError
deriving DecidableEq

inductive RequestResult where
  | blocked
  | success
  | clientErr (status : Nat)
  | raised
  | exhausted
deriving DecidableEq

structure RequestRun where
  state : ProxyState
  result : RequestResult
  delays : List ℚ
  attempts : Nat
deriving DecidableEq

/-- The `for attempt in range(self.max_retries + 1)` loop of
`_make_request_with_retry` (discord.py lines 289-362).  `a` is the attempt
index, `fuel` the number of attempts still allowed (initially
`maxRetries + 1`); `failTimes a` is the `time.time()` reading if attempt `a`
fails, `rand a` the `random.uniform(0.1, 0.5)` draw for the back-off after
attempt `a`.  The run records the slept back-off delays and the number of
attempts made. -/
def retryLoop (hasProxy : Bool) (oracle : Nat → AttemptOutcome)
    (failTimes rand : Nat → ℚ) : Nat → Nat → ProxyState → RequestRun
  | _, 0, s => ⟨s, .exhausted, [], 0⟩
  | a, fuel + 1, s =>
    match oracle a with
    | .ok => ⟨reset_proxy_health s, .success, [], 1⟩
    | .clientError st => ⟨s, .clientErr st, [], 1⟩
    | .nonNetError => ⟨s, .raised, [], 1⟩
    | .netError =>
      let s1 := if hasProxy then handle_proxy_failure s (failTimes a) else s
      match fuel with
      | 0 => ⟨s1, .raised, [], 1⟩
      | fuel' + 1 =>
        let delay := min (baseDelay * 2 ^ a) maxDelay
        let jitter := rand a * delay
        let rest := retryLoop hasProxy oracle failTimes rand (a + 1) (fuel' + 1) s1
        ⟨rest.state, rest.result, (delay + jitter) :: rest.delays, rest.attempts + 1⟩

/-- `_make_request_with_retry` (discord.py lines 277-364): reject immediately
when the circuit breaker is open; reject when a configured proxy is unhealthy;
otherwise run the attempt loop. -/
def make_request_with_retry (hasProxy : Bool) (s : ProxyState) (now : ℚ)
    (probe : ProbeOutcome) (oracle : Nat → AttemptOutcome)
    (failTimes rand : Nat → ℚ) : RequestRun :=
  let r1 := is_circuit_breaker_open s now
  if r1.2 then ⟨r1.1, .blocked, [], 0⟩
  else
    let r2 := check_proxy_health hasProxy r1.1 now probe
    if hasProxy = true ∧ r2.2 = false then ⟨r2.1, .blocked, [], 0⟩
    else retryLoop hasProxy oracle failTimes rand 0 (maxRetries + 1) r2.1

/-! ## Claim C2: circuit breaker -/

/-- C2: once the failure counter reaches `severe_failure_threshold` (10) the
breaker opens with the current time recorded; every call made strictly less
than `circuit_breaker_timeout` (600s) later is rejected with no attempt
(zero attempts, no delays, state unchanged); once 600s have elapsed the
breaker check closes the circuit; and a single successful request (via
`_reset_proxy_health`) zeroes the failure counter, restores health, and
closes an open circuit. -/
theorem circuit_breaker_spec (s : ProxyState) (now : ℚ)
    (h9 : severeFailureThreshold ≤ s.proxyConsecutiveFailures + 1) :
    ((handle_proxy_failure s now).circuitBreakerOpen = true ∧
      (handle_proxy_failure s now).circuitBreakerOpenTime = now) ∧
    (∀ (t : ℚ) (hasProxy : Bool) (probe : ProbeOutcome)
        (oracle : Nat → AttemptOutcome) (failTimes rand : Nat → ℚ),
      t - now < circuitBreakerTimeout →
      make_request_with_retry hasProxy (handle_proxy_failure s now) t probe oracle
          failTimes rand =
        ⟨handle_proxy_failure s now, .blocked, [], 0⟩) ∧
    (∀ t : ℚ, circuitBreakerTimeout ≤ t - now →
      is_circuit_breaker_open (handle_proxy_failure s now) t =
        ({ (handle_proxy_failure s now) with circuitBreakerOpen := false, circuitBreakerOpenTime := 0 }, false)) ∧
    (∀ s₀ : ProxyState,
      (reset_proxy_health s₀).proxyConsecutiveFailures = 0 ∧
      (reset_proxy_health s₀).proxyHealthy = true ∧
      (reset_proxy_health s₀).circuitBreakerOpen = false) ∧
    (∀ (a fuel : Nat) (s₀ : ProxyState) (hasProxy : Bool)
        (oracle : Nat → AttemptOutcome) (failTimes rand : Nat → ℚ),
      oracle a = .ok →
      retryLoop hasProxy oracle failTimes rand a (fuel + 1) s₀ =
        ⟨reset_proxy_health s₀, .success, [], 1⟩) := by
  have hopen : (handle_proxy_failure s now).circuitBreakerOpen = true := by
    simp [handle_proxy_failure, h9]
  have htime : (handle_proxy_failure s now).circuitBreakerOpenTime = now := by
    simp [handle_proxy_failure, h9]
  refine ⟨⟨hopen, htime⟩, ?_, ?_, ?_, ?_⟩
  · intro t hasProxy probe oracle failTimes rand ht
    have hno : ¬ (circuitBreakerTimeout ≤
        t - (handle_proxy_failure s now).circuitBreakerOpenTime) := by
      rw [htime]
      exact not_le.mpr ht
    simp [make_request_with_retry, is_circuit_breaker_open, hopen, hno]
  · intro t ht
    have hyes : circuitBreakerTimeout ≤
        t - (handle_proxy_failure s now).circuitBreakerOpenTime := by
      rw [htime]
      exact ht
    simp [is_circuit_breaker_open, hopen, hyes]
  · intro s₀
    simp only [reset_proxy_health]
    split_ifs with h1 h2 h3 <;> simp_all
  · intro a fuel s₀ hasProxy oracle failTimes rand hok
    simp [retryLoop, hok]

def cbState0 : ProxyState :=
  { proxyHealthy := false, proxyLastCheck := 0, proxyConsecutiveFailures := 9,
    circuitBreakerOpen := false, circuitBreakerOpenTime := 0 }

theorem circuit_breaker_spec_witness :
    (severeFailureThreshold ≤ cbState0.proxyConsecutiveFailures + 1) ∧
    ((1300 : ℚ) - 1000 < circuitBreakerTimeout) ∧
    make_request_with_retry true (handle_proxy_failure cbState0 1000) 1300 .ok
        (fun _ => .ok) (fun _ => 0) (fun _ => 0) =
      ⟨handle_proxy_failure cbState0 1000, .blocked, [], 0⟩ :=
  ⟨by decide, by norm_num [circuitBreakerTimeout],
    (circuit_breaker_spec cbState0 1000 (by decide)).2.1 1300 true .ok _ _ _
      (by norm_num [circuitBreakerTimeout])⟩

/-! ## Claim C3: retry with exponential back-off -/

theorem retryLoop_zero (hasProxy : Bool) (oracle : Nat → AttemptOutcome)
    (failTimes rand : Nat → ℚ) (a : Nat) (s : ProxyState) :
    retryLoop hasProxy oracle failTimes rand a 0 s = ⟨s, .exhausted, [], 0⟩ := rfl

theorem retryLoop_ok (hasProxy : Bool) (oracle : Nat → AttemptOutcome)
    (failTimes rand : Nat → ℚ) (a fuel : Nat) (s : ProxyState)
    (ho : oracle a = .ok) :
    retryLoop hasProxy oracle failTimes rand a (fuel + 1) s =
      ⟨reset_proxy_health s, .success, [], 1⟩ := by
  cases fuel <;> simp only [retryLoop, ho]

theorem retryLoop_client (hasProxy : Bool) (oracle : Nat → AttemptOutcome)
    (failTimes rand : Nat → ℚ) (a fuel : Nat) (s : ProxyState) (st : Nat)
    (ho : oracle a = .clientError st) :
    retryLoop hasProxy oracle failTimes rand a (fuel + 1) s = ⟨s, .clientErr st, [], 1⟩ := by
  cases fuel <;> simp only [retryLoop, ho]

theorem retryLoop_nonnet (hasProxy : Bool) (oracle : Nat → AttemptOutcome)
    (failTimes rand : Nat → ℚ) (a fuel : Nat) (s : ProxyState)
    (ho : oracle a = .nonNetError) :
    retryLoop hasProxy oracle failTimes rand a (fuel + 1) s = ⟨s, .raised, [], 1⟩ := by
  cases fuel <;> simp only [retryLoop, ho]

theorem retryLoop_net_last (hasProxy : Bool) (oracle : Nat → AttemptOutcome)
    (failTimes rand : Nat → ℚ) (a : Nat) (s : ProxyState)
    (ho : oracle a = .netError) :
    retryLoop hasProxy oracle failTimes rand a 1 s =
      ⟨if hasProxy then handle_proxy_failure s (failTimes a) else s, .raised, [], 1⟩ := by
  simp only [retryLoop, ho]

theorem retryLoop_net_cont (hasProxy : Bool) (oracle : Nat → AttemptOutcome)
    (failTimes rand : Nat → ℚ) (a m : Nat) (s : ProxyState)
    (ho : oracle a = .netError) :
    retryLoop hasProxy oracle failTimes rand a (m + 2) s =
      ⟨(retryLoop hasProxy oracle failTimes rand (a + 1) (m + 1)
          (if hasProxy then handle_proxy_failure s (failTimes a) else s)).state,
       (retryLoop hasProxy oracle failTimes rand (a + 1) (m + 1)
          (if hasProxy then handle_proxy_failure s (failTimes a) else s)).result,
       (min (baseDelay * 2 ^ a) maxDelay + rand a * min (baseDelay * 2 ^ a) maxDelay) ::
         (retryLoop hasProxy oracle failTimes rand (a + 1) (m + 1)
            (if hasProxy then handle_proxy_failure s (failTimes a) else s)).delays,
       (retryLoop hasProxy oracle failTimes rand (a + 1) (m + 1)
          (if hasProxy then handle_proxy_failure s (failTimes a) else s)).attempts + 1⟩ := by
  conv_lhs => rw [retryLoop]
  rw [ho]

theorem retryLoop_attempts_le (hasProxy : Bool) (oracle : Nat → AttemptOutcome)
    (failTimes rand : Nat → ℚ) :
    ∀ (fuel a : Nat) (s : ProxyState),
      (retryLoop hasProxy oracle failTimes rand a fuel s).attempts ≤ fuel := by
  intro fuel
  induction fuel with
  | zero =>
    intro a s
    simp [retryLoop_zero]
  | succ n ih =>
    intro a s
    cases ho : oracle a with
    | ok => simp [retryLoop_ok hasProxy oracle failTimes rand a n s ho]
    | clientError st => simp [retryLoop_client hasProxy oracle failTimes rand a n s st ho]
    | nonNetError => simp [retryLoop_nonnet hasProxy oracle failTimes rand a n s ho]
    | netError =>
      cases n with
      | zero => simp [retryLoop_net_last hasProxy oracle failTimes rand a s ho]
      | succ m =>
        have hrec := ih (a + 1)
          (if hasProxy then handle_proxy_failure s (failTimes a) else s)
        rw [retryLoop_net_cont hasProxy oracle failTimes rand a m s ho]
        dsimp only
        omega

theorem retryLoop_delays_mem (hasProxy : Bool) (oracle : Nat → AttemptOutcome)
    (failTimes rand : Nat → ℚ) :
    ∀ (fuel a : Nat) (s : ProxyState) (d : ℚ),
      d ∈ (retryLoop hasProxy oracle failTimes rand a fuel s).delays →
      ∃ k, a ≤ k ∧ k + 1 < a + fuel ∧
        d = min (baseDelay * 2 ^ k) maxDelay + rand k * min (baseDelay * 2 ^ k) maxDelay := by
  intro fuel
  induction fuel with
  | zero =>
    intro a s d hd
    simp [retryLoop_zero] at hd
  | succ n ih =>
    intro a s d hd
    cases ho : oracle a with
    | ok => simp [retryLoop_ok hasProxy oracle failTimes rand a n s ho] at hd
    | clientError st =>
      simp [retryLoop_client hasProxy oracle failTimes rand a n s st ho] at hd
    | nonNetError => simp [retryLoop_nonnet hasProxy oracle failTimes rand a n s ho] at hd
    | netError =>
      cases n with
      | zero => simp [retryLoop_net_last hasProxy oracle failTimes rand a s ho] at hd
      | succ m =>
        rw [retryLoop_net_cont hasProxy oracle failTimes rand a m s ho] at hd
        simp only [List.mem_cons] at hd
        rcases hd with hd | hd
        · exact ⟨a, le_refl a, by omega, hd⟩
        · obtain ⟨k, hk1, hk2, hk3⟩ := ih (a + 1) _ d hd
          exact ⟨k, by omega, by omega, hk3⟩

/-- C3: a transport operation makes at most `max_retries + 1` attempts; a
client-class (4xx) response or a non-network exception on the first attempt
ends the call after exactly one attempt with no back-off sleep; when every
attempt hits a network/timeout-class error the call makes all
`max_retries + 1` attempts, sleeping after attempt `a` (0-based, `a` below
`max_retries`) exactly `min(base * 2^a, maxDelay) + jitter` where
`jitter = rand a * min(base * 2^a, maxDelay)`; and every slept delay is of
that shape with the jitter between 0.1 and 0.5 times the back-off delay. -/
theorem retry_spec (hasProxy : Bool) (s : ProxyState) (now : ℚ)
    (probe : ProbeOutcome) (oracle : Nat → AttemptOutcome)
    (failTimes rand : Nat → ℚ) (run : RequestRun)
    (hrun : run = make_request_with_retry hasProxy s now probe oracle failTimes rand)
    (hnb : run.result ≠ .blocked)
    (hr : ∀ n, 1/10 ≤ rand n ∧ rand n ≤ 1/2) :
    run.attempts ≤ maxRetries + 1 ∧
    (∀ st, oracle 0 = .clientError st →
      run.result = .clientErr st ∧ run.attempts = 1 ∧ run.delays = []) ∧
    (oracle 0 = .nonNetError → run.result = .raised ∧ run.attempts = 1 ∧ run.delays = []) ∧
    ((∀ i, oracle i = .netError) →
      run.result = .raised ∧ run.attempts = maxRetries + 1 ∧
      run.delays = (List.range maxRetries).map
        (fun a => min (baseDelay * 2 ^ a) maxDelay + rand a * min (baseDelay * 2 ^ a) maxDelay)) ∧
    (∀ d ∈ run.delays, ∃ a, a < maxRetries ∧
      d = min (baseDelay * 2 ^ a) maxDelay + rand a * min (baseDelay * 2 ^ a) maxDelay ∧
      1/10 * min (baseDelay * 2 ^ a) maxDelay ≤ rand a * min (baseDelay * 2 ^ a) maxDelay ∧
      rand a * min (baseDelay * 2 ^ a) maxDelay ≤ 1/2 * min (baseDelay * 2 ^ a) maxDelay) ∧
    (∀ (st a fuel : Nat) (s₀ : ProxyState), oracle a = .clientError st →
      retryLoop hasProxy oracle failTimes rand a (fuel + 1) s₀ = ⟨s₀, .clientErr st, [], 1⟩) ∧
    (∀ (a fuel : Nat) (s₀ : ProxyState), oracle a = .nonNetError →
      retryLoop hasProxy oracle failTimes rand a (fuel + 1) s₀ = ⟨s₀, .raised, [], 1⟩) := by
  have hloop : ∃ s2, run = retryLoop hasProxy oracle failTimes rand 0 (maxRetries + 1) s2 := by
    by_cases h1 : (is_circuit_breaker_open s now).2
    · rw [hrun] at hnb
      simp only [make_request_with_retry] at hnb
      simp [h1] at hnb
    · by_cases h2 : hasProxy = true ∧
          (check_proxy_health hasProxy (is_circuit_breaker_open s now).1 now probe).2 = false
      · obtain ⟨hp1, hp2⟩ := h2
        subst hp1
        rw [hrun] at hnb
        simp only [make_request_with_retry] at hnb
        simp [h1, hp2] at hnb
      · refine ⟨(check_proxy_health hasProxy (is_circuit_breaker_open s now).1 now probe).1, ?_⟩
        rw [hrun]
        simp only [make_request_with_retry]
        simp [h1, h2]
  obtain ⟨s2, hs2⟩ := hloop
  refine ⟨?_, ?_, ?_, ?_, ?_, ?_, ?_⟩
  · rw [hs2]
    exact retryLoop_attempts_le hasProxy oracle failTimes rand _ _ _
  · intro st h0
    rw [hs2, retryLoop_client hasProxy oracle failTimes rand 0 maxRetries s2 st h0]
    exact ⟨rfl, rfl, rfl⟩
  · intro h0
    rw [hs2, retryLoop_nonnet hasProxy oracle failTimes rand 0 maxRetries s2 h0]
    exact ⟨rfl, rfl, rfl⟩
  · intro hnet
    rw [hs2]
    have hm : maxRetries + 1 = 4 := rfl
    rw [hm]
    rw [retryLoop_net_cont hasProxy oracle failTimes rand 0 2 s2 (hnet 0)]
    rw [retryLoop_net_cont hasProxy oracle failTimes rand 1 1 _ (hnet 1)]
    rw [retryLoop_net_cont hasProxy oracle failTimes rand 2 0 _ (hnet 2)]
    rw [retryLoop_net_last hasProxy oracle failTimes rand 3 _ (hnet 3)]
    refine ⟨rfl, rfl, ?_⟩
    have hr3 : List.range maxRetries = [0, 1, 2] := rfl
    rw [hr3]
    simp
  · intro d hd
    rw [hs2] at hd
    obtain ⟨k, hk0, hk1, hk2⟩ :=
      retryLoop_delays_mem hasProxy oracle failTimes rand (maxRetries + 1) 0 s2 d hd
    have hD : (0 : ℚ) ≤ min (baseDelay * 2 ^ k) maxDelay := by
      rw [baseDelay, maxDelay]
      refine le_min (by positivity) (by norm_num)
    refine ⟨k, by omega, hk2, ?_, ?_⟩
    · exact mul_le_mul_of_nonneg_right (hr k).1 hD
    · exact mul_le_mul_of_nonneg_right (hr k).2 hD
  · intro st a fuel s₀ h0
    exact retryLoop_client hasProxy oracle failTimes rand a fuel s₀ st h0
  · intro a fuel s₀ h0
    exact retryLoop_nonnet hasProxy oracle failTimes rand a fuel s₀ h0

theorem retry_spec_witness :
    ((fun _ : Nat => AttemptOutcome.clientError 404) 0 = AttemptOutcome.clientError 404) ∧
    (make_request_with_retry false {} 0 .ok (fun _ => .clientError 404)
        (fun _ => 0) (fun _ => 1/4)).result = .clientErr 404 ∧
    (make_request_with_retry false {} 0 .ok (fun _ => .clientError 404)
        (fun _ => 0) (fun _ => 1/4)).attempts = 1 := by
  have hnb : (make_request_with_retry false {} 0 .ok (fun _ => .clientError 404)
      (fun _ => 0) (fun _ => 1/4)).result ≠ .blocked := by
    simp [make_request_with_retry, is_circuit_breaker_open, check_proxy_health, retryLoop]
  have h := retry_spec false {} 0 .ok (fun _ => .clientError 404) (fun _ => 0)
    (fun _ => 1/4) _ rfl hnb (fun n => ⟨by norm_num, by norm_num⟩)
  exact ⟨rfl, (h.2.1 404 rfl).1, (h.2.1 404 rfl).2.1⟩

/-! ## Message splitting (src/adapters/telegram.py lines 261-300,
src/adapters/discord.py lines 564-603)

`split_message` is textually identical in both adapters up to the
`max_message_length` constant, so it is modelled once with the limit as a
parameter.  `str.rfind` is modelled by `rfindL` (greatest index at which the
pattern occurs), and the `while remaining` loop by `splitLoop` with a fuel
argument equal to the initial length, which strictly bounds the number of
iterations whenever the limit is positive (the Python loop would not
terminate for a zero limit; both adapters use 4096 resp. 2000). -/

/-- The `split_patterns` priority list. -/
def splitPatterns : List (List Char) := [['\n', '\n'], ['\n'], ['.', ' '], [',', ' '], [' ']]

/-- Greatest index `i ≤ n` with `pat` occurring at `i` in `l`. -/
def rfindFrom (l pat : List Char) : Nat → Option Nat
  | 0 => if pat.isPrefixOf l then some 0 else none
  | i + 1 => if pat.isPrefixOf (l.drop (i + 1)) then some (i + 1) else rfindFrom l pat i

/-- Python `l.rfind(pat)`: index of the last occurrence, `none` for `-1`. -/
def rfindL (l pat : List Char) : Option Nat := rfindFrom l pat l.length

/-- The `for pattern in split_patterns` search for the best split point:
take the first (highest-priority) pattern whose last occurrence in the window
lies strictly past `maxLen / 2`, cutting just after it; default to `maxLen`. -/
def findSplit (maxLen : Nat) (chunk : List Char) : List (List Char) → Nat
  | [] => maxLen
  | pat :: pats =>
    match rfindL chunk pat with
    | some idx => if maxLen / 2 < idx then idx + pat.length else findSplit maxLen chunk pats
    | none => findSplit maxLen chunk pats

def bestSplit (maxLen : Nat) (remaining : List Char) : Nat :=
  findSplit maxLen (remaining.take maxLen) splitPatterns

/-- The `while remaining:` loop of `split_message`. -/
def splitLoop (maxLen : Nat) : Nat → List Char → List (List Char)
  | 0, _ => []
  | fuel + 1, remaining =>
    if remaining.isEmpty then []
    else if remaining.length ≤ maxLen then [remaining]
    else
      rstripL (remaining.take (bestSplit maxLen remaining)) ::
        splitLoop maxLen fuel (lstripL (remaining.drop (bestSplit maxLen remaining)))

def split_message (maxLen : Nat) (text : List Char) : List (List Char) :=
  if text.length ≤ maxLen then [text] else splitLoop maxLen text.length text

/-- `pat` occurs in `chunk` at index `i`. -/
def occursAt (pat chunk : List Char) (i : Nat) : Prop :=
  pat.isPrefixOf (chunk.drop i) = true

/-- `pat` has an occurrence strictly past the midpoint of the window. -/
def qualifyingOcc (maxLen : Nat) (chunk pat : List Char) : Prop :=
  ∃ i, occursAt pat chunk i ∧ maxLen / 2 < i

theorem splitLoop_zero (maxLen : Nat) (r : List Char) : splitLoop maxLen 0 r = [] := rfl

theorem splitLoop_succ (maxLen fuel : Nat) (r : List Char) :
    splitLoop maxLen (fuel + 1) r =
      if r.isEmpty then []
      else if r.length ≤ maxLen then [r]
      else
        rstripL (r.take (bestSplit maxLen r)) ::
          splitLoop maxLen fuel (lstripL (r.drop (bestSplit maxLen r))) := rfl

theorem isPrefixOf_length {l₁ l₂ : List Char} (h : l₁.isPrefixOf l₂ = true) :
    l₁.length ≤ l₂.length := by
  rw [List.isPrefixOf_iff_prefix] at h
  exact h.length_le

theorem rfindFrom_some (l pat : List Char) :
    ∀ n i, rfindFrom l pat n = some i →
      pat.isPrefixOf (l.drop i) = true ∧ i ≤ n ∧
      ∀ j, i < j → j ≤ n → pat.isPrefixOf (l.drop j) = false := by
  intro n
  induction n with
  | zero =>
    intro i h
    rw [rfindFrom] at h
    by_cases hp : pat.isPrefixOf l
    · rw [if_pos hp] at h
      obtain rfl : (0 : Nat) = i := Option.some_inj.mp h
      refine ⟨by simpa using hp, le_refl 0, ?_⟩
      intro j hj1 hj2
      omega
    · rw [if_neg hp] at h
      exact absurd h (by simp)
  | succ k ih =>
    intro i h
    rw [rfindFrom] at h
    by_cases hp : pat.isPrefixOf (l.drop (k + 1))
    · rw [if_pos hp] at h
      obtain rfl : k + 1 = i := Option.some_inj.mp h
      refine ⟨hp, le_refl _, ?_⟩
      intro j hj1 hj2
      omega
    · rw [if_neg hp] at h
      obtain ⟨h1, h2, h3⟩ := ih i h
      refine ⟨h1, by omega, ?_⟩
      intro j hj1 hj2
      rcases Nat.lt_or_ge j (k + 1) with hj | hj
      · exact h3 j hj1 (by omega)
      · have : j = k + 1 := by omega
        subst this
        exact Bool.eq_false_iff.mpr hp

theorem rfindFrom_none (l pat : List Char) :
    ∀ n, rfindFrom l pat n = none → ∀ j, j ≤ n → pat.isPrefixOf (l.drop j) = false := by
  intro n
  induction n with
  | zero =>
    intro h j hj
    rw [rfindFrom] at h
    obtain rfl : j = 0 := by omega
    by_cases hp : pat.isPrefixOf l
    · rw [if_pos hp] at h
      exact absurd h (by simp)
    · exact Bool.eq_false_iff.mpr hp
  | succ k ih =>
    intro h j hj
    rw [rfindFrom] at h
    by_cases hp : pat.isPrefixOf (l.drop (k + 1))
    · rw [if_pos hp] at h
      exact absurd h (by simp)
    · rw [if_neg hp] at h
      rcases Nat.lt_or_ge j (k + 1) with hjk | hjk
      · exact ih h j (by omega)
      · have : j = k + 1 := by omega
        subst this
        exact Bool.eq_false_iff.mpr hp

theorem occursAt_bound {pat chunk : List Char} {i : Nat} (hne : pat ≠ [])
    (h : occursAt pat chunk i) : i + pat.length ≤ chunk.length := by
  have hlen := isPrefixOf_length h
  rw [List.length_drop] at hlen
  have hpos : 1 ≤ pat.length := List.length_pos.mpr hne
  omega

theorem rfindL_some {chunk pat : List Char} {i : Nat} (hne : pat ≠ [])
    (h : rfindL chunk pat = some i) :
    occursAt pat chunk i ∧ ∀ j, i < j → ¬ occursAt pat chunk j := by
  obtain ⟨h1, _, h3⟩ := rfindFrom_some chunk pat chunk.length i h
  refine ⟨h1, ?_⟩
  intro j hij hocc
  have hb := occursAt_bound hne hocc
  have hpos : 1 ≤ pat.length := List.length_pos.mpr hne
  have : j ≤ chunk.length := by omega
  have := h3 j hij this
  rw [hocc] at this
  exact absurd this (by simp)

theorem rfindL_none {chunk pat : List Char} (hne : pat ≠ [])
    (h : rfindL chunk pat = none) : ∀ j, ¬ occursAt pat chunk j := by
  intro j hocc
  have hb := occursAt_bound hne hocc
  have hpos : 1 ≤ pat.length := List.length_pos.mpr hne
  have hj : j ≤ chunk.length := by omega
  have := rfindFrom_none chunk pat chunk.length h j hj
  rw [hocc] at this
  exact absurd this (by simp)

theorem splitPatterns_ne : ∀ p ∈ splitPatterns, p ≠ [] := by decide

theorem findSplit_le (maxLen : Nat) (chunk : List Char) (hc : chunk.length ≤ maxLen) :
    ∀ pats, (∀ p ∈ pats, p ≠ []) → findSplit maxLen chunk pats ≤ maxLen := by
  intro pats
  induction pats with
  | nil =>
    intro _
    simp [findSplit]
  | cons pat pats ih =>
    intro hne
    have hpat : pat ≠ [] := hne pat (by simp)
    have hrest : ∀ p ∈ pats, p ≠ [] := fun p hp => hne p (by simp [hp])
    rw [findSplit]
    cases hfind : rfindL chunk pat with
    | none => exact ih hrest
    | some idx =>
      dsimp only
      by_cases hmid : maxLen / 2 < idx
      · rw [if_pos hmid]
        have hocc := (rfindL_some hpat hfind).1
        have := occursAt_bound hpat hocc
        omega
      · rw [if_neg hmid]
        exact ih hrest

theorem findSplit_pos (maxLen : Nat) (chunk : List Char) (hm : 1 ≤ maxLen) :
    ∀ pats, (∀ p ∈ pats, p ≠ []) → 1 ≤ findSplit maxLen chunk pats := by
  intro pats
  induction pats with
  | nil =>
    intro _
    simpa [findSplit] using hm
  | cons pat pats ih =>
    intro hne
    have hpat : pat ≠ [] := hne pat (by simp)
    have hrest : ∀ p ∈ pats, p ≠ [] := fun p hp => hne p (by simp [hp])
    have hpos : 1 ≤ pat.length := List.length_pos.mpr hpat
    rw [findSplit]
    cases hfind : rfindL chunk pat with
    | none => exact ih hrest
    | some idx =>
      dsimp only
      by_cases hmid : maxLen / 2 < idx
      · rw [if_pos hmid]
        omega
      · rw [if_neg hmid]
        exact ih hrest

theorem bestSplit_le (maxLen : Nat) (r : List Char) : bestSplit maxLen r ≤ maxLen := by
  rw [bestSplit]
  refine findSplit_le maxLen _ ?_ splitPatterns splitPatterns_ne
  simp [List.length_take]

theorem bestSplit_pos (maxLen : Nat) (r : List Char) (hm : 1 ≤ maxLen) :
    1 ≤ bestSplit maxLen r := by
  rw [bestSplit]
  exact findSplit_pos maxLen _ hm splitPatterns splitPatterns_ne

theorem splitLoop_parts_le (maxLen : Nat) :
    ∀ (fuel : Nat) (r : List Char), ∀ p ∈ splitLoop maxLen fuel r, p.length ≤ maxLen := by
  intro fuel
  induction fuel with
  | zero =>
    intro r p hp
    rw [splitLoop_zero] at hp
    simp at hp
  | succ n ih =>
    intro r p hp
    rw [splitLoop_succ] at hp
    by_cases he : r.isEmpty
    · rw [if_pos he] at hp
      simp at hp
    · rw [if_neg he] at hp
      by_cases hl : r.length ≤ maxLen
      · rw [if_pos hl] at hp
        simp at hp
        subst hp
        exact hl
      · rw [if_neg hl] at hp
        rcases List.mem_cons.mp hp with hp | hp
        · subst hp
          calc (rstripL (r.take (bestSplit maxLen r))).length
              ≤ (r.take (bestSplit maxLen r)).length := rstripL_length_le _
            _ ≤ bestSplit maxLen r := by simp [List.length_take]
            _ ≤ maxLen := bestSplit_le maxLen r
        · exact ih _ p hp

/-- `parts` assemble into `t`: `t` is the concatenation of the parts with
whitespace-only filler between consecutive parts and after the last part —
exactly the material removed by the `rstrip`/`lstrip` at each cut. -/
inductive JoinsWithWs : List (List Char) → List Char → Prop
  | nil (w : List Char) (hw : ∀ c ∈ w, isSpaceChar c = true) : JoinsWithWs [] w
  | cons (p w : List Char) (ps : List (List Char)) (t : List Char)
      (hw : ∀ c ∈ w, isSpaceChar c = true) (ht : JoinsWithWs ps t) :
      JoinsWithWs (p :: ps) (p ++ w ++ t)

theorem joinsWithWs_single (r : List Char) : JoinsWithWs [r] r := by
  have h := JoinsWithWs.cons r [] [] [] (by simp) (JoinsWithWs.nil [] (by simp))
  simpa using h

theorem splitLoop_joins (maxLen : Nat) (hm : 1 ≤ maxLen) :
    ∀ (fuel : Nat) (r : List Char), r.length ≤ fuel →
      JoinsWithWs (splitLoop maxLen fuel r) r := by
  intro fuel
  induction fuel with
  | zero =>
    intro r hr
    have : r = [] := List.length_eq_zero.mp (by omega)
    subst this
    rw [splitLoop_zero]
    exact JoinsWithWs.nil [] (by simp)
  | succ n ih =>
    intro r hr
    rw [splitLoop_succ]
    by_cases he : r.isEmpty
    · rw [if_pos he]
      have : r = [] := by simpa [List.isEmpty_iff] using he
      subst this
      exact JoinsWithWs.nil [] (by simp)
    · rw [if_neg he]
      by_cases hl : r.length ≤ maxLen
      · rw [if_pos hl]
        exact joinsWithWs_single r
      · rw [if_neg hl]
        have hb1 : 1 ≤ bestSplit maxLen r := bestSplit_pos maxLen r hm
        have hrne : r ≠ [] := by simpa [List.isEmpty_iff] using he
        have hrpos : 1 ≤ r.length := List.length_pos.mpr hrne
        have hfuel : (lstripL (r.drop (bestSplit maxLen r))).length ≤ n := by
          have h1 := lstripL_length_le (r.drop (bestSplit maxLen r))
          have h2 : (r.drop (bestSplit maxLen r)).length = r.length - bestSplit maxLen r :=
            List.length_drop _ _
          omega
        have hrec := ih (lstripL (r.drop (bestSplit maxLen r))) hfuel
        obtain ⟨hw1, hd1⟩ := rstripL_decomp (r.take (bestSplit maxLen r))
        obtain ⟨hw2, hd2⟩ := lstripL_decomp (r.drop (bestSplit maxLen r))
        have hjoin := JoinsWithWs.cons (rstripL (r.take (bestSplit maxLen r)))
          (((r.take (bestSplit maxLen r)).reverse.takeWhile isSpaceChar).reverse ++
            (r.drop (bestSplit maxLen r)).takeWhile isSpaceChar)
          (splitLoop maxLen n (lstripL (r.drop (bestSplit maxLen r))))
          (lstripL (r.drop (bestSplit maxLen r)))
          (by
            intro c hc
            rcases List.mem_append.mp hc with hc | hc
            · exact hw1 c hc
            · exact List.mem_takeWhile_imp hc)
          hrec
        have hre : r = rstripL (r.take (bestSplit maxLen r)) ++
            (((r.take (bestSplit maxLen r)).reverse.takeWhile isSpaceChar).reverse ++
              (r.drop (bestSplit maxLen r)).takeWhile isSpaceChar) ++
            lstripL (r.drop (bestSplit maxLen r)) := by
          calc r = r.take (bestSplit maxLen r) ++ r.drop (bestSplit maxLen r) :=
                (List.take_append_drop (bestSplit maxLen r) r).symm
            _ = (rstripL (r.take (bestSplit maxLen r)) ++
                  ((r.take (bestSplit maxLen r)).reverse.takeWhile isSpaceChar).reverse) ++
                ((r.drop (bestSplit maxLen r)).takeWhile isSpaceChar ++
                  lstripL (r.drop (bestSplit maxLen r))) := by rw [← hd1, ← hd2]
            _ = rstripL (r.take (bestSplit maxLen r)) ++
                (((r.take (bestSplit maxLen r)).reverse.takeWhile isSpaceChar).reverse ++
                  (r.drop (bestSplit maxLen r)).takeWhile isSpaceChar) ++
                lstripL (r.drop (bestSplit maxLen r)) := by
                  simp [List.append_assoc]
        rw [← hre] at hjoin
        exact hjoin

theorem findSplit_no_qual (maxLen : Nat) (chunk : List Char) :
    ∀ pats, (∀ p ∈ pats, p ≠ []) →
      (∀ pat ∈ pats, ¬ qualifyingOcc maxLen chunk pat) →
      findSplit maxLen chunk pats = maxLen := by
  intro pats
  induction pats with
  | nil =>
    intro _ _
    simp [findSplit]
  | cons pat pats ih =>
    intro hne hq
    have hpat : pat ≠ [] := hne pat (by simp)
    have hrest : ∀ p ∈ pats, p ≠ [] := fun p hp => hne p (by simp [hp])
    have hqrest : ∀ p ∈ pats, ¬ qualifyingOcc maxLen chunk p :=
      fun p hp => hq p (by simp [hp])
    rw [findSplit]
    cases hfind : rfindL chunk pat with
    | none => exact ih hrest hqrest
    | some idx =>
      dsimp only
      by_cases hmid : maxLen / 2 < idx
      · exact absurd ⟨idx, (rfindL_some hpat hfind).1, hmid⟩ (hq pat (by simp))
      · rw [if_neg hmid]
        exact ih hrest hqrest

theorem findSplit_qual (maxLen : Nat) (chunk : List Char) :
    ∀ (pre : List (List Char)) (pat : List Char) (suf : List (List Char)),
      (∀ p ∈ pre ++ pat :: suf, p ≠ []) →
      (∀ q ∈ pre, ¬ qualifyingOcc maxLen chunk q) →
      qualifyingOcc maxLen chunk pat →
      ∃ idx, findSplit maxLen chunk (pre ++ pat :: suf) = idx + pat.length ∧
        occursAt pat chunk idx ∧ maxLen / 2 < idx ∧
        ∀ j, idx < j → ¬ occursAt pat chunk j := by
  intro pre
  induction pre with
  | nil =>
    intro pat suf hne _ hq
    have hpat : pat ≠ [] := hne pat (by simp)
    rw [List.nil_append, findSplit]
    cases hfind : rfindL chunk pat with
    | none =>
      obtain ⟨i, hi, _⟩ := hq
      exact absurd hi (rfindL_none hpat hfind i)
    | some idx =>
      obtain ⟨hocc, hmax⟩ := rfindL_some hpat hfind
      obtain ⟨i, hi, hmid⟩ := hq
      have hile : i ≤ idx := by
        by_contra hcon
        exact hmax i (by omega) hi
      have hmid2 : maxLen / 2 < idx := by omega
      dsimp only
      rw [if_pos hmid2]
      exact ⟨idx, rfl, hocc, hmid2, hmax⟩
  | cons q pre ih =>
    intro pat suf hne hqpre hq
    have hqne : q ≠ [] := hne q (by simp)
    have hne2 : ∀ p ∈ pre ++ pat :: suf, p ≠ [] := fun p hp => hne p (by simp [hp])
    have hqpre2 : ∀ p ∈ pre, ¬ qualifyingOcc maxLen chunk p :=
      fun p hp => hqpre p (by simp [hp])
    rw [List.cons_append, findSplit]
    cases hfind : rfindL chunk q with
    | none => exact ih pat suf hne2 hqpre2 hq
    | some idx =>
      dsimp only
      by_cases hmid : maxLen / 2 < idx
      · exact absurd ⟨idx, (rfindL_some hqne hfind).1, hmid⟩ (hqpre q (by simp))
      · rw [if_neg hmid]
        exact ih pat suf hne2 hqpre2 hq

/-- C6: for any positive limit, `split_message` produces parts of length at
most the limit; the original text is the concatenation of the parts with only
whitespace dropped at the cut points; and every cut (the value of `bestSplit`
on the current remainder) is placed just after the LAST occurrence of the
highest-priority pattern whose last occurrence lies strictly past
`maxLen / 2` in the window, or exactly at `maxLen` when no pattern
qualifies. -/
theorem split_message_spec (maxLen : Nat) (t : List Char) (hm : 1 ≤ maxLen) :
    (∀ p ∈ split_message maxLen t, p.length ≤ maxLen) ∧
    JoinsWithWs (split_message maxLen t) t ∧
    (∀ r : List Char,
      ((∀ pat ∈ splitPatterns, ¬ qualifyingOcc maxLen (r.take maxLen) pat) →
        bestSplit maxLen r = maxLen) ∧
      (∀ pre pat suf, splitPatterns = pre ++ pat :: suf →
        (∀ q ∈ pre, ¬ qualifyingOcc maxLen (r.take maxLen) q) →
        qualifyingOcc maxLen (r.take maxLen) pat →
        ∃ idx, bestSplit maxLen r = idx + pat.length ∧
          occursAt pat (r.take maxLen) idx ∧ maxLen / 2 < idx ∧
          ∀ j, idx < j → ¬ occursAt pat (r.take maxLen) j)) := by
  refine ⟨?_, ?_, ?_⟩
  · intro p hp
    rw [split_message] at hp
    by_cases hl : t.length ≤ maxLen
    · rw [if_pos hl] at hp
      simp at hp
      subst hp
      exact hl
    · rw [if_neg hl] at hp
      exact splitLoop_parts_le maxLen t.length t p hp
  · rw [split_message]
    by_cases hl : t.length ≤ maxLen
    · rw [if_pos hl]
      exact joinsWithWs_single t
    · rw [if_neg hl]
      exact splitLoop_joins maxLen hm t.length t (le_refl _)
  · intro r
    constructor
    · intro hq
      rw [bestSplit]
      exact findSplit_no_qual maxLen _ splitPatterns splitPatterns_ne hq
    · intro pre pat suf hsp hqpre hq
      rw [bestSplit, hsp]
      exact findSplit_qual maxLen _ pre pat suf (hsp ▸ splitPatterns_ne) hqpre hq

theorem split_message_spec_witness :
    (1 ≤ 5) ∧
    ∀ p ∈ split_message 5 ("hello cruel world".toList), p.length ≤ 5 :=
  ⟨by decide, (split_message_spec 5 ("hello cruel world".toList) (by decide)).1⟩

/-! ## Long-message sending (src/adapters/telegram.py lines 302-340,
src/adapters/discord.py lines 605-640)

`send_long_message` splits the text and, when more than one part results,
prepends a part header to each part before transmission: the Telegram adapter
uses `f"[{i}/{len(parts)}]\n\n"`, the Discord adapter
`f"**[{i}/{len(parts)}]**\n\n"` (bold markers).  The functions below return
the list of transmitted texts; `withIndex 1` models `enumerate(parts, 1)`. -/

def withIndex : Nat → List (List Char) → List (Nat × List Char)
  | _, [] => []
  | i, p :: ps => (i, p) :: withIndex (i + 1) ps

def telegramHeader (i n : Nat) : List Char :=
  "[".toList ++ (Nat.repr i).toList ++ "/".toList ++ (Nat.repr n).toList ++
    "]".toList ++ ['\n', '\n']

def discordHeader (i n : Nat) : List Char :=
  "**[".toList ++ (Nat.repr i).toList ++ "/".toList ++ (Nat.repr n).toList ++
    "]**".toList ++ ['\n', '\n']

/-- Texts transmitted by `TelegramAdapter.send_long_message`. -/
def telegram_send_long_message (text : List Char) : List (List Char) :=
  if (split_message telegramMaxLen text).length = 1 then [text]
  else (withIndex 1 (split_message telegramMaxLen text)).map
    (fun pi => telegramHeader pi.1 (split_message telegramMaxLen text).length ++ pi.2)

/-- Texts transmitted by `DiscordAdapter.send_long_message`. -/
def discord_send_long_message (content : List Char) : List (List Char) :=
  if (split_message discordMaxLen content).length = 1 then [content]
  else (withIndex 1 (split_message discordMaxLen content)).map
    (fun pi => discordHeader pi.1 (split_message discordMaxLen content).length ++ pi.2)

theorem isPrefixOf_replicate {c a : Char} (hc : (c == a) = false) (p : List Char) :
    ∀ k, ((c :: p).isPrefixOf (List.replicate k a)) = false := by
  intro k
  cases k with
  | zero => rfl
  | succ m =>
    rw [List.replicate_succ]
    show ((c == a) && p.isPrefixOf (List.replicate m a)) = false
    rw [hc, Bool.false_and]

theorem rfindFrom_eq_none (l pat : List Char)
    (h : ∀ j, pat.isPrefixOf (l.drop j) = false) : ∀ n, rfindFrom l pat n = none := by
  intro n
  induction n with
  | zero =>
    have h0 := h 0
    rw [List.drop_zero] at h0
    simp [rfindFrom, h0]
  | succ k ih =>
    simp [rfindFrom, h (k + 1), ih]

theorem rfindL_replicate_a (k : Nat) (pat : List Char) (hp : pat ∈ splitPatterns) :
    rfindL (List.replicate k 'a') pat = none := by
  refine rfindFrom_eq_none _ _ ?_ _
  intro j
  rw [List.drop_replicate]
  simp only [splitPatterns, List.mem_cons, List.not_mem_nil, or_false] at hp
  rcases hp with rfl | rfl | rfl | rfl | rfl <;>
    exact isPrefixOf_replicate (by decide) _ _

theorem findSplit_all_none (maxLen : Nat) (chunk : List Char) :
    ∀ pats, (∀ p ∈ pats, rfindL chunk p = none) → findSplit maxLen chunk pats = maxLen := by
  intro pats
  induction pats with
  | nil =>
    intro _
    simp [findSplit]
  | cons pat pats ih =>
    intro h
    rw [findSplit, h pat (by simp)]
    exact ih (fun p hp => h p (by simp [hp]))

theorem bestSplit_replicate (maxLen n : Nat) :
    bestSplit maxLen (List.replicate n 'a') = maxLen := by
  rw [bestSplit, List.take_replicate]
  exact findSplit_all_none maxLen _ splitPatterns
    (fun p hp => rfindL_replicate_a _ p hp)

theorem dropWhile_eq_self_of_no (p : Char → Bool) (l : List Char)
    (h : ∀ c ∈ l, p c = false) : l.dropWhile p = l := by
  cases l with
  | nil => rfl
  | cons a l =>
    rw [List.dropWhile_cons, if_neg]
    simp [h a (by simp)]

theorem rstripL_replicate_a (n : Nat) :
    rstripL (List.replicate n 'a') = List.replicate n 'a' := by
  rw [rstripL, List.reverse_replicate, dropWhile_eq_self_of_no, List.reverse_replicate]
  intro c hc
  rw [List.eq_of_mem_replicate hc]
  decide

theorem lstripL_replicate_a (n : Nat) :
    lstripL (List.replicate n 'a') = List.replicate n 'a' := by
  rw [lstripL, dropWhile_eq_self_of_no]
  intro c hc
  rw [List.eq_of_mem_replicate hc]
  decide

theorem split_message_replicate (maxLen : Nat) (hm : 1 ≤ maxLen) :
    split_message maxLen (List.replicate (maxLen + 1) 'a') =
      [List.replicate maxLen 'a', ['a']] := by
  obtain ⟨m, rfl⟩ : ∃ m, maxLen = m + 1 := ⟨maxLen - 1, by omega⟩
  rw [split_message, if_neg (by simp)]
  rw [List.length_replicate, splitLoop_succ]
  rw [if_neg (by simp), if_neg (by simp)]
  rw [bestSplit_replicate]
  rw [List.take_replicate, List.drop_replicate]
  have h1 : min (m + 1) (m + 1 + 1) = m + 1 := by omega
  have h2 : m + 1 + 1 - (m + 1) = 1 := by omega
  rw [h1, h2, rstripL_replicate_a, lstripL_replicate_a]
  rw [show List.replicate 1 'a' = ['a'] from rfl]
  rw [splitLoop_succ]
  rw [if_neg (by simp), if_pos (by simp)]

/-- C10 counterexample: for the Discord adapter the transmitted first part of
a 2001-character message is prefixed with `**[1/2]**` and two newlines — not
with the plain `[1/2]` plus two newlines the claim states for every
platform. -/
theorem discord_header_counterexample :
    (discord_send_long_message (List.replicate 2001 'a')).head? =
      some (discordHeader 1 2 ++ List.replicate 2000 'a') ∧
    discordHeader 1 2 = "**[1/2]**".toList ++ ['\n', '\n'] ∧
    ¬ (discord_send_long_message (List.replicate 2001 'a')).head? =
      some (("[1/2]".toList ++ ['\n', '\n']) ++ List.replicate 2000 'a') := by
  have h1 : split_message discordMaxLen (List.replicate 2001 'a') =
      [List.replicate 2000 'a', ['a']] := by
    have h := split_message_replicate 2000 (by norm_num)
    have h20 : (2000 : Nat) + 1 = 2001 := by norm_num
    rw [h20] at h
    exact h
  have hfirst : (discord_send_long_message (List.replicate 2001 'a')).head? =
      some (discordHeader 1 2 ++ List.replicate 2000 'a') := by
    rw [discord_send_long_message, h1]
    rfl
  refine ⟨hfirst, by decide, ?_⟩
  intro hcon
  rw [hfirst] at hcon
  have heq := Option.some_inj.mp hcon
  have hlen := congrArg List.length heq
  rw [List.length_append, List.length_append] at hlen
  have hd : (discordHeader 1 2).length = 11 := by decide
  have ht : (("[1/2]".toList ++ ['\n', '\n']) : List Char).length = 7 := by decide
  rw [hd, ht] at hlen
  omega

/-- C10 (amended): for multi-part sends the Telegram adapter transmits
`"[i/N]" + "\n\n" + part` while the Discord adapter transmits
`"**[i/N]**" + "\n\n" + part`; since parts may be as long as the platform
limit, the transmitted text can exceed the limit by the header length, as the
2001-character Discord example shows (first transmitted text has 2011
characters, over the 2000 limit). -/
theorem send_long_header_spec (t u : List Char)
    (ht : 1 < (split_message telegramMaxLen t).length)
    (hu : 1 < (split_message discordMaxLen u).length) :
    telegram_send_long_message t = (withIndex 1 (split_message telegramMaxLen t)).map
      (fun pi => "[".toList ++ (Nat.repr pi.1).toList ++ "/".toList ++
        (Nat.repr (split_message telegramMaxLen t).length).toList ++ "]".toList ++
        ['\n', '\n'] ++ pi.2) ∧
    discord_send_long_message u = (withIndex 1 (split_message discordMaxLen u)).map
      (fun pi => "**[".toList ++ (Nat.repr pi.1).toList ++ "/".toList ++
        (Nat.repr (split_message discordMaxLen u).length).toList ++ "]**".toList ++
        ['\n', '\n'] ++ pi.2) ∧
    ∃ msg ∈ discord_send_long_message (List.replicate 2001 'a'),
      discordMaxLen < msg.length := by
  refine ⟨?_, ?_, ?_⟩
  · rw [telegram_send_long_message, if_neg (by omega)]
    refine List.map_congr_left ?_
    intro pi _
    simp [telegramHeader, List.append_assoc]
  · rw [discord_send_long_message, if_neg (by omega)]
    refine List.map_congr_left ?_
    intro pi _
    simp [discordHeader, List.append_assoc]
  · have h1 : split_message discordMaxLen (List.replicate 2001 'a') =
        [List.replicate 2000 'a', ['a']] := by
      have h := split_message_replicate 2000 (by norm_num)
      have h20 : (2000 : Nat) + 1 = 2001 := by norm_num
      rw [h20] at h
      exact h
    refine ⟨discordHeader 1 2 ++ List.replicate 2000 'a', ?_, ?_⟩
    · rw [discord_send_long_message, h1]
      show (discordHeader 1 2 ++ List.replicate 2000 'a') ∈
        [discordHeader 1 2 ++ List.replicate 2000 'a', discordHeader 2 2 ++ ['a']]
      exact List.mem_cons_self _ _
    · rw [List.length_append]
      have hd : (discordHeader 1 2).length = 11 := by decide
      rw [hd, List.length_replicate, discordMaxLen]
      omega

theorem send_long_header_spec_witness :
    (1 < (split_message telegramMaxLen (List.replicate 4097 'a')).length) ∧
    ∃ msg ∈ discord_send_long_message (List.replicate 2001 'a'),
      discordMaxLen < msg.length := by
  have ht : 1 < (split_message telegramMaxLen (List.replicate 4097 'a')).length := by
    have h := split_message_replicate 4096 (by norm_num)
    have h40 : (4096 : Nat) + 1 = 4097 := by norm_num
    rw [h40] at h
    have h2 : split_message telegramMaxLen (List.replicate 4097 'a') =
        [List.replicate 4096 'a', ['a']] := h
    rw [h2]
    norm_num
  have hu : 1 < (split_message discordMaxLen (List.replicate 2001 'a')).length := by
    have h := split_message_replicate 2000 (by norm_num)
    have h20 : (2000 : Nat) + 1 = 2001 := by norm_num
    rw [h20] at h
    have h2 : split_message discordMaxLen (List.replicate 2001 'a') =
        [List.replicate 2000 'a', ['a']] := h
    rw [h2]
    norm_num
  exact ⟨ht, (send_long_header_spec (List.replicate 4097 'a') (List.replicate 2001 'a')
    ht hu).2.2⟩

/-! ## Router output extraction (src/core/router.py lines 454-559)

`MessageRouter._extract_claude_response` splits the raw command output into
lines, opportunistically parses each stripped line as JSON, accumulates the
text payloads of `assistant` events and the payload of the last successful
`result` event, and selects the user-visible text by priority: accumulated
assistant text, else the final result, else a noise-scrubbed join of the raw
lines, else a truncated one-line summary of the output, else a fixed
sentinel; `_clean_response_content` then removes `(no content)` markers
(three case-insensitive regex variants), collapses runs of three newlines
(with interspersed whitespace) to a blank line, and strips the result.
`json.loads` is modelled by the oracle `parse` mapping a stripped line to the
fields the extractor reads (`none` models a JSONDecodeError). -/

/-- Python `output.split('\n')`. -/
def splitLines : List Char → List (List Char)
  | [] => [[]]
  | c :: cs =>
    if c = '\n' then [] :: splitLines cs
    else
      match splitLines cs with
      | [] => [[c]]
      | l :: ls => (c :: l) :: ls

/-- One entry of `json['message']['content']`; an empty `text` models a falsy
or absent field. -/
structure ContentItem where
  itemType : List Char
  text : List Char
deriving DecidableEq

/-- The fields of a parsed output line that the extractor reads. -/
inductive ClaudeEvent where
  | assistant (message : Option (List ContentItem))
  | result (subtype : List Char) (payload : List Char)
  | other
deriving DecidableEq

/-- The texts appended for one assistant event: items of type `text` with a
non-empty payload. -/
def assistantTexts (content : List ContentItem) : List (List Char) :=
  (content.filter (fun it => decide (it.itemType = "text".toList ∧ it.text ≠ []))).map
    ContentItem.text

/-- The line loop of `_extract_claude_response` (router.py lines 464-488):
accumulate assistant texts in `acc` and keep the last successful result
payload in `fin`. -/
def extractScan (parse : List Char → Option ClaudeEvent) :
    List (List Char) → List (List Char) → List Char → List (List Char) × List Char
  | [], acc, fin => (acc, fin)
  | line :: rest, acc, fin =>
    let st := stripL line
    if st.isEmpty then extractScan parse rest acc fin
    else
      match parse st with
      | none => extractScan parse rest acc fin
      | some (.assistant msg) =>
        match msg with
        | some content =>
          if content.isEmpty then extractScan parse rest acc fin
          else extractScan parse rest (acc ++ assistantTexts content) fin
        | none => extractScan parse rest acc fin
      | some (.result st2 payload) =>
        if st2 = "success".toList ∧ payload ≠ [] then extractScan parse rest acc payload
        else extractScan parse rest acc fin
      | some .other => extractScan parse rest acc fin

/-- Python `pat in hay` (substring containment). -/
def containsSub (hay pat : List Char) : Bool :=
  (List.range (hay.length + 1)).any (fun i => pat.isPrefixOf (hay.drop i))

/-- The noise filter of the plain-text fallback (router.py lines 507-517). -/
def isNoiseLine (cl : List Char) : Bool :=
  ("\"type\":\"system\"".toList).isPrefixOf cl ||
  containsSub cl ("Executing:".toList) ||
  containsSub cl ("Node.js".toList) ||
  containsSub cl ("DEP0190".toList) ||
  containsSub cl ("DeprecationWarning".toList) ||
  containsSub cl ("Windows PowerShell".toList) ||
  containsSub cl ("版权所有".toList) ||
  ("Microsoft".toList).isPrefixOf cl ||
  ("执行完成".toList).isPrefixOf cl ||
  cl.isEmpty

/-- The plain-text scrub loop (router.py lines 500-523) with its
`found_content` flag. -/
def scrubLines (found : Bool) (acc : List (List Char)) :
    List (List Char) → List (List Char)
  | [] => acc
  | line :: rest =>
    let cl := stripL line
    if isNoiseLine cl then scrubLines found acc rest
    else
      let found2 := if found = false ∧ cl ≠ [] then true else found
      if found2 then scrubLines found2 (acc ++ [cl]) rest
      else scrubLines found2 acc rest

/-- Python `'\n'.join`. -/
def joinNl : List (List Char) → List Char
  | [] => []
  | [l] => l
  | l :: ls => l ++ '\n' :: joinNl ls

/-- Python `''.join`. -/
def joinAll : List (List Char) → List Char
  | [] => []
  | l :: ls => l ++ joinAll ls

/-- Python `str.split()` (split on whitespace runs, dropping empties). -/
def splitWsAux (cur : List Char) : List Char → List (List Char)
  | [] => if cur.isEmpty then [] else [cur.reverse]
  | c :: cs =>
    if isSpaceChar c then
      if cur.isEmpty then splitWsAux [] cs
      else cur.reverse :: splitWsAux [] cs
    else splitWsAux (c :: cur) cs

def splitWs (l : List Char) : List (List Char) := splitWsAux [] l

/-- Python `' '.join`. -/
def joinSpace : List (List Char) → List Char
  | [] => []
  | [w] => w
  | w :: ws => w ++ ' ' :: joinSpace ws

/-- Match a literal pattern (given lowercase) case-insensitively at the front,
returning the rest. -/
def dropCI : List Char → List Char → Option (List Char)
  | [], l => some l
  | _ :: _, [] => none
  | a :: s, c :: l => if c.toLower = a then dropCI s l else none

/-- Regex `\s+` at the front (maximal munch; the following pattern characters
are never whitespace, so no backtracking is needed). -/
def dropWs1 : List Char → Option (List Char)
  | [] => none
  | c :: cs => if isSpaceChar c then some (cs.dropWhile isSpaceChar) else none

/-- Regex `\(no content\)` (IGNORECASE). -/
def matchNC1 (l : List Char) : Option (List Char) := dropCI ("(no content)".toList) l

/-- Regex `\(no\s+content\)` (IGNORECASE). -/
def matchNC2 (l : List Char) : Option (List Char) :=
  (dropCI ("(no".toList) l).bind fun r1 =>
  (dropWs1 r1).bind fun r2 =>
  dropCI ("content)".toList) r2

/-- Regex `\(\s*no\s+content\s*\)` (IGNORECASE). -/
def matchNC3 (l : List Char) : Option (List Char) :=
  (dropCI ("(".toList) l).bind fun r1 =>
  (dropCI ("no".toList) (r1.dropWhile isSpaceChar)).bind fun r2 =>
  (dropWs1 r2).bind fun r3 =>
  (dropCI ("content".toList) r3).bind fun r4 =>
  dropCI (")".toList) (r4.dropWhile isSpaceChar)

/-- `re.sub(pattern, '', s)`: scan left to right, deleting every
(non-overlapping) match.  Every matcher used consumes at least one character,
so a fuel of `l.length` always suffices. -/
def subAllF (m : List Char → Option (List Char)) : Nat → List Char → List Char
  | 0, l => l
  | _ + 1, [] => []
  | fuel + 1, c :: cs =>
    match m (c :: cs) with
    | some rest => subAllF m fuel rest
    | none => c :: subAllF m fuel cs

def subAll (m : List Char → Option (List Char)) (l : List Char) : List Char :=
  subAllF m l.length l

/-- Greedy match of `\n\s*\n\s*\n` at the front: succeeds iff the leading
whitespace run starts with a newline and contains at least three newlines,
and consumes up to the last newline of that run. -/
def matchNlRun : List Char → Option (List Char)
  | [] => none
  | c :: cs =>
    if c = '\n' then
      let r2 := (((c :: cs).takeWhile isSpaceChar).reverse.dropWhile
        (fun d => d != '\n')).reverse
      if 3 ≤ r2.count '\n' then some ((c :: cs).drop r2.length) else none
    else none

/-- `re.sub(r'\n\s*\n\s*\n', '\n\n', s)`. -/
def collapseNlF : Nat → List Char → List Char
  | 0, l => l
  | _ + 1, [] => []
  | fuel + 1, c :: cs =>
    match matchNlRun (c :: cs) with
    | some rest => '\n' :: '\n' :: collapseNlF fuel rest
    | none => c :: collapseNlF fuel cs

def collapseNl (l : List Char) : List Char := collapseNlF l.length l

/-- `MessageRouter._clean_response_content` (router.py lines 540-559). -/
def clean_response_content (content : List Char) : List Char :=
  if content.isEmpty then []
  else
    let c3 := subAll matchNC3 (subAll matchNC2 (subAll matchNC1 content))
    let c5 := stripL (collapseNl c3)
    if c5.isEmpty then "Response processed but no content to display".toList else c5

/-- `MessageRouter._extract_claude_response` (router.py lines 454-538). -/
def extract_claude_response (parse : List Char → Option ClaudeEvent)
    (output : List Char) : List Char :=
  if output.isEmpty ∨ (stripL output).isEmpty then
    "Command executed but no response received.".toList
  else
    let lines := splitLines output
    let scanned := extractScan parse lines [] []
    let r1 :=
      if ¬ scanned.1.isEmpty then joinAll scanned.1
      else if ¬ scanned.2.isEmpty then scanned.2
      else []
    let r2 := if r1.isEmpty then stripL (joinNl (scrubLines false [] lines)) else r1
    let r3 :=
      if r2.isEmpty then
        if ¬ output.isEmpty then
          let summary := joinSpace (splitWs output)
          if 200 < summary.length then summary.take 200 ++ "...".toList else summary
        else "Command executed but no response received.".toList
      else r2
    clean_response_content r3

theorem extractScan_cons (parse : List Char → Option ClaudeEvent)
    (line : List Char) (rest acc : List (List Char)) (fin : List Char) :
    extractScan parse (line :: rest) acc fin =
      (if (stripL line).isEmpty then extractScan parse rest acc fin
       else
         match parse (stripL line) with
         | none => extractScan parse rest acc fin
         | some (.assistant msg) =>
           match msg with
           | some content =>
             if content.isEmpty then extractScan parse rest acc fin
             else extractScan parse rest (acc ++ assistantTexts content) fin
           | none => extractScan parse rest acc fin
         | some (.result st2 payload) =>
           if st2 = "success".toList ∧ payload ≠ [] then extractScan parse rest acc payload
           else extractScan parse rest acc fin
         | some .other => extractScan parse rest acc fin) := rfl

theorem assistantTexts_ne (content : List ContentItem) :
    ∀ p ∈ assistantTexts content, p ≠ [] := by
  intro p hp
  rw [assistantTexts] at hp
  obtain ⟨it, hit, rfl⟩ := List.mem_map.mp hp
  have hf := List.of_mem_filter hit
  simp only [decide_eq_true_eq] at hf
  exact hf.2

theorem extractScan_parts_ne (parse : List Char → Option ClaudeEvent) :
    ∀ (lines acc : List (List Char)) (fin : List Char),
      (∀ p ∈ acc, p ≠ []) → ∀ p ∈ (extractScan parse lines acc fin).1, p ≠ [] := by
  intro lines
  induction lines with
  | nil =>
    intro acc fin hacc p hp
    exact hacc p hp
  | cons line rest ih =>
    intro acc fin hacc
    rw [extractScan_cons]
    by_cases h1 : (stripL line).isEmpty
    · rw [if_pos h1]
      exact ih acc fin hacc
    · rw [if_neg h1]
      cases hp : parse (stripL line) with
      | none => exact ih acc fin hacc
      | some ev =>
        cases ev with
        | assistant msg =>
          cases msg with
          | none => exact ih acc fin hacc
          | some content =>
            dsimp only
            by_cases h2 : content.isEmpty
            · rw [if_pos h2]
              exact ih acc fin hacc
            · rw [if_neg h2]
              refine ih _ fin ?_
              intro p hp2
              rcases List.mem_append.mp hp2 with hp2 | hp2
              · exact hacc p hp2
              · exact assistantTexts_ne content p hp2
        | result st2 payload =>
          dsimp only
          by_cases h3 : st2 = "success".toList ∧ payload ≠ []
          · rw [if_pos h3]
            exact ih acc payload hacc
          · rw [if_neg h3]
            exact ih acc fin hacc
        | other => exact ih acc fin hacc

theorem joinAll_ne {parts : List (List Char)} (hne : parts ≠ [])
    (h : ∀ p ∈ parts, p ≠ []) : joinAll parts ≠ [] := by
  cases parts with
  | nil => exact absurd rfl hne
  | cons p ps =>
    rw [joinAll]
    intro hcon
    rcases List.append_eq_nil.mp hcon with ⟨hp, _⟩
    exact h p (by simp) hp

theorem isEmpty_false_of_ne {α : Type} {l : List α} (h : l ≠ []) : l.isEmpty = false := by
  cases l with
  | nil => exact absurd rfl h
  | cons a t => rfl

/-- Parsing oracle for the concrete three-event example. -/
def exampleParse : List Char → Option ClaudeEvent := fun l =>
  if l = "e1".toList then some (.assistant (some [⟨"text".toList, "A".toList⟩]))
  else if l = "e2".toList then some (.assistant (some [⟨"text".toList, "B".toList⟩]))
  else if l = "e3".toList then some (.result ("success".toList) ("Z".toList))
  else none

/-- C7: on the three line-delimited events
`assistant "A"`, `assistant "B"`, `result success "Z"` the extracted response
is `"AB"`; in general, whenever any assistant text was accumulated the
response is the (cleaned) concatenation of all accumulated assistant texts,
and when none was accumulated the (cleaned) final-result payload is used
instead. -/
theorem extract_priority_spec :
    extract_claude_response exampleParse ("e1\ne2\ne3".toList) = "AB".toList ∧
    (∀ (parse : List Char → Option ClaudeEvent) (output : List Char),
      output.isEmpty = false → (stripL output).isEmpty = false →
      (extractScan parse (splitLines output) [] []).1 ≠ [] →
      extract_claude_response parse output =
        clean_response_content (joinAll (extractScan parse (splitLines output) [] []).1)) ∧
    (∀ (parse : List Char → Option ClaudeEvent) (output : List Char),
      output.isEmpty = false → (stripL output).isEmpty = false →
      (extractScan parse (splitLines output) [] []).1 = [] →
      (extractScan parse (splitLines output) [] []).2 ≠ [] →
      extract_claude_response parse output =
        clean_response_content (extractScan parse (splitLines output) [] []).2) := by
  refine ⟨by decide, ?_, ?_⟩
  · intro parse output h1 h2 hne
    have hparts : ∀ p ∈ (extractScan parse (splitLines output) [] []).1, p ≠ [] :=
      extractScan_parts_ne parse (splitLines output) [] [] (by simp)
    have hjoin : joinAll (extractScan parse (splitLines output) [] []).1 ≠ [] :=
      joinAll_ne hne hparts
    have ha : (extractScan parse (splitLines output) [] []).1.isEmpty = false :=
      isEmpty_false_of_ne hne
    have hjb : (joinAll (extractScan parse (splitLines output) [] []).1).isEmpty = false :=
      isEmpty_false_of_ne hjoin
    rw [extract_claude_response, if_neg (by simp [h1, h2])]
    simp [ha, hjb]
  · intro parse output h1 h2 hemp hfin
    have ha : (extractScan parse (splitLines output) [] []).1.isEmpty = true := by
      rw [hemp]
      rfl
    have hfb : (extractScan parse (splitLines output) [] []).2.isEmpty = false :=
      isEmpty_false_of_ne hfin
    rw [extract_claude_response, if_neg (by simp [h1, h2])]
    simp [ha, hfb]

/-- Parsing oracle with a single successful result event. -/
def exampleParse2 : List Char → Option ClaudeEvent := fun l =>
  if l = "r".toList then some (.result ("success".toList) ("Z".toList)) else none

theorem extract_priority_spec_witness :
    extract_claude_response exampleParse2 ("r".toList) =
      clean_response_content ("Z".toList) :=
  extract_priority_spec.2.2 exampleParse2 ("r".toList) (by decide) (by decide)
    (by decide) (by decide)

end CCRemote
